import Mathlib

/-!
Shallow embedding of the flow-traversal / branch-collection engine of
`articy-node` (files `src/iterator.ts` and `src/script.ts`).

Modelling conventions:
* JavaScript object identity of the variable store matters (stores are
  mutated in place and cloned explicitly), so stores live in an explicit
  heap: a `Ref` is an index into a `Heap`, `cloneVariableStore` allocates
  a fresh cell holding a copy of the content, and in-place mutation is a
  `Heap.set` at the store's ref.  All other records (`FlowState`,
  `VisitSet`, `FlowBranch`) are only rebound, spread-copied, or freshly
  constructed by the code under study, so they are modelled by value.
* The node capability (`BaseFlowNode`, defined outside the two source
  files; spec section 3 lists it as an external collaborator) is a record
  of functions: `numBranchesF` is a pure query; stepping through a node
  (`next`) and executing it (`execute`) may mutate the store that was
  passed in, modelled by the effect functions `nextEff` / `execEff`
  applied to the content of the passed ref.  `next` returns the target's
  id, resolved through the database (the real capability resolves
  connection targets through the same database).
* JavaScript truthiness of ids (`!state.id` is true for both
  `null`/`undefined` and the empty string) is modelled by `isFalsyId`.
* Recursion in `collectBranches` is made total with an explicit fuel
  parameter; exhausted fuel returns the empty result, mirroring the
  documented non-termination hazard of the source (spec section 4.2).
-/

/-- Articy object ids (`Id` in the source; GUID strings in the export).
Renamed from `Id`, which Lean reserves. -/
abbrev ObjId := String

/-- Primitive variable values: boolean, number, or string. -/
inductive Var where
  | b (x : Bool)
  | n (x : Int)
  | s (x : String)
deriving DecidableEq, Repr

/-- Content of one variable store: a flat mapping from fully qualified
variable name to a primitive value, modelled as an association list. -/
abbrev VarMap := List (String × Var)

/-- A reference to a variable store object (JS object identity). -/
abbrev Ref := Nat

/-- The heap of live variable-store objects; allocation appends. -/
abbrev Heap := List VarMap

/-- Read the content of the store at `r` (unallocated refs read as empty). -/
def Heap.get (h : Heap) (r : Ref) : VarMap := h.getD r []

/-- Overwrite the content of the store at `r` in place. -/
def Heap.set (h : Heap) (r : Ref) (v : VarMap) : Heap := List.set h r v

/-- Allocate a fresh store with content `v`, returning its ref. -/
def Heap.alloc (h : Heap) (v : VarMap) : Ref × Heap := (h.length, h ++ [v])

/-- `cloneVariableStore` from `iterator.ts`: a structurally independent
deep copy (`JSON.parse(JSON.stringify(vars))`) — a fresh object whose
content equals the source's. -/
def cloneVariableStore (h : Heap) (r : Ref) : Ref × Heap := h.alloc (h.get r)

/-- Feature data attached to a node template.  The engine inspects only
the `Visit_Limitation` feature's `Only_Once` field; every other feature
is opaque data handed to externally registered handlers. -/
inductive Feature where
  | visitLimitation (onlyOnce : Bool)
  | opaque_ (tag : String)
deriving DecidableEq, Repr

/-- A node template: an ordered mapping from feature name to feature data
(JS object key enumeration order is insertion order). -/
abbrev Template := List (String × Feature)

/-- External node capability (spec section 3): branch count, branch
resolution, shadow requirement, script execution, type membership and an
optional template.  `numBranchesF` is a query; `nextEff`/`execEff` are
the in-place mutations `next`/`execute` perform on the store handed to
them. -/
structure Node where
  nid : ObjId
  types : List String
  template : Option Template
  needsShadowB : Bool
  numBranchesF : VarMap → Option ObjId → Bool → Nat
  nextF : VarMap → Int → Option ObjId → Bool → Option ObjId
  nextEff : VarMap → Int → Option ObjId → Bool → VarMap
  execEff : VarMap → VarMap

/-- `node.is(type)`: type-name membership (the real capability walks the
inheritance chain; modelled as membership in the node's type-name set). -/
def Node.is (n : Node) (t : String) : Bool := n.types.contains t

/-- The `Database` capability consumed by the iterator:
`getObject(id, BaseFlowNode)` and `newVariableStore()`. -/
structure Database where
  objects : ObjId → Option Node
  newVars : VarMap

/-- `VisitCounts` / `VisitIndicies` bundled as in `iterator.ts`:
two mappings keyed by node id. -/
structure VisitSet where
  counts : ObjId → Option Nat
  indicies : ObjId → Option Nat

/-- The empty visit set `{ counts: {}, indicies: {} }`. -/
def emptyVisits : VisitSet := ⟨fun _ => none, fun _ => none⟩

/-- Basic flow iterator state (`FlowState` in `iterator.ts`).
`vars` (named `variables` in the source, a Lean keyword) is a reference to a heap cell.  The optional `shadowing`
flag is modelled as a `Bool` (the source reads it as
`state.shadowing ?? false`, so absent and `false` are indistinguishable
at every use site; the reset state propagates it unchanged). -/
structure FlowState where
  id : Option ObjId
  last : Option ObjId
  vars : Ref
  shadowing : Bool
deriving DecidableEq, Repr

/-- JS truthiness test `!state.id`: null/undefined or the empty string. -/
def isFalsyId : Option ObjId → Bool
  | none => true
  | some i => i = ""

/-- A branch in the flow: an index among siblings (`-1` is the
"unindexed" constructor default) and the path from (excluding) the fork
node to (including) the terminal node. -/
structure FlowBranch where
  index : Int
  path : List Node

/-- `FlowBranch.destination()`: the terminal node of the path. -/
def FlowBranch.destination? (b : FlowBranch) : Option Node := b.path.getLast?

/-- Advanced flow iterator state: position plus cached branches, the
visit set and the turn counter. -/
structure AdvancedFlowState where
  id : Option ObjId
  last : Option ObjId
  vars : Ref
  shadowing : Bool
  branches : List FlowBranch
  visits : VisitSet
  turn : Nat

/-- View an advanced state as a basic `FlowState` (TypeScript interface
extension). -/
def AdvancedFlowState.toFlowState (s : AdvancedFlowState) : FlowState :=
  ⟨s.id, s.last, s.vars, s.shadowing⟩

/-- `NullAdvancedFlowState`: the canonical empty state.  Its `vars`
is the module-level shared empty store, modelled by the conventional
ref `0` (callers of the model keep heap cell 0 empty). -/
def NullAdvancedFlowState : AdvancedFlowState :=
  { id := none, last := none, vars := 0, shadowing := false,
    branches := [], visits := emptyVisits, turn := 0 }

/-- `CustomStopType` from `iterator.ts`. -/
inductive CustomStopType where
  | NormalStop
  | StopAndContinue
  | Continue
deriving DecidableEq, Repr

/-- `AdvancedIterationConfig`: stop-set and optional custom stop handler
(`void` results are `none`). -/
structure Config where
  stopAtTypes : List String
  customStopHandler : Option (Node → VisitSet → Option CustomStopType)

/-- `shouldStopAt`: the node's type matches at least one stop type. -/
def shouldStopAt (node : Node) (stopAtTypes : List String) : Bool :=
  (stopAtTypes.filter (fun t => node.is t)).length > 0

/-- `basicNextFlowState` from `iterator.ts`.  Returns the new state and
the reached node (plus the threaded heap).  With no id it returns the
input state unchanged; an unresolved node or missing target yields the
reset state `{id: null, last: null, vars: {}}` with a *fresh* empty
store, preserving the shadowing flag.  Invoking `node.next` applies the
node's step effect to the store that was passed in. -/
def basicNextFlowState (db : Database) (h : Heap) (state : FlowState)
    (branchIndex : Int) : (FlowState × Option Node) × Heap :=
  if isFalsyId state.id then ((state, none), h)
  else
    match state.id.bind db.objects with
    | none =>
      let (r, h1) := h.alloc []
      (({ id := none, last := none, vars := r,
          shadowing := state.shadowing }, none), h1)
    | some node =>
      let vars := h.get state.vars
      let h1 := h.set state.vars
        (node.nextEff vars branchIndex state.last state.shadowing)
      match (node.nextF vars branchIndex state.last state.shadowing).bind
          db.objects with
      | none =>
        let (r, h2) := h1.alloc []
        (({ id := none, last := none, vars := r,
            shadowing := state.shadowing }, none), h2)
      | some nx =>
        (({ id := some nx.nid, last := state.id,
            vars := state.vars,
            shadowing := state.shadowing }, some nx), h1)

/-- The `Visit_Limitation` check `limit_feature && limit_feature.Only_Once`
from `collectBranches`: a `Visit_Limitation` feature of the wrong shape has
an undefined (falsy) `Only_Once`. -/
def visitLimitOnlyOnce (n : Node) : Bool :=
  match n.template with
  | none => false
  | some tmpl =>
    match tmpl.lookup "Visit_Limitation" with
    | some (.visitLimitation o) => o
    | _ => false

/-!
`collectBranches` from `iterator.ts`, split along its control structure:
`collectBranches` is the function entry (guards, node resolution, branch
construction, first `numBranches` call), `collectLoop` is the
`while (branches === 1 || direction >= 0)` loop, and `forkLoop` is the
`for (let i = 0; i < branches; i++)` loop after the fork.  Every
recursive call consumes one unit of fuel; out of fuel, the empty result
is returned (the source does not terminate on such graphs).

Note on aliasing: the source mutates the *field* `iter.variables` of the
passed-in state object before rebinding `iter`; states are modelled by
value here (see the header comment), which is observationally equal for
everything below except that sibling fork recursions of the source share
the parent's state object.
-/

mutual

def collectBranches (db : Database) (config : Config) (visits : VisitSet)
    (fuel : Nat) (h : Heap) (iter : FlowState) (branch? : Option FlowBranch)
    (index : Int) (direction : Int) (node? : Option Node) :
    List FlowBranch × Heap :=
  match fuel with
  | 0 => ([], h)
  | fuel + 1 =>
    -- No valid ID? Return nothing.
    if isFalsyId iter.id then ([], h)
    else
      -- node = node ?? db.getObject(iter.id, BaseFlowNode)
      match node? <|> iter.id.bind db.objects with
      | none => ([], h)
      | some node =>
        -- if (!branch) branch = new FlowBranch(index)
        let branch := branch?.getD ⟨index, []⟩
        let branches :=
          node.numBranchesF (h.get iter.vars) iter.last iter.shadowing
        collectLoop db config visits fuel h iter branch index direction node
          branches

def collectLoop (db : Database) (config : Config) (visits : VisitSet)
    (fuel : Nat) (h : Heap) (iter : FlowState) (branch : FlowBranch)
    (index : Int) (direction : Int) (node : Node) (branches : Nat) :
    List FlowBranch × Heap :=
  match fuel with
  | 0 => ([], h)
  | fuel + 1 =>
    if branches = 1 ∨ direction ≥ 0 then
      -- if (node.needsShadow()) iter.variables = cloneVariableStore(...)
      let cloned :=
        if node.needsShadowB then
          let (r, h') := cloneVariableStore h iter.vars
          (h', { iter with vars := r })
        else (h, iter)
      match basicNextFlowState db cloned.1 cloned.2 direction with
      | ((_, none), h2) =>
        -- Dead end: no return since we didn't hit a valid end point
        ([], h2)
      | ((iter2, some n), h2) =>
        -- Visit-limited node already visited? Kill the branch.
        if visitLimitOnlyOnce n ∧ (visits.counts n.nid).getD 0 > 0 then
          ([], h2)
        else
          -- branch.path.push(node)
          let branch1 : FlowBranch := ⟨branch.index, branch.path ++ [n]⟩
          if shouldStopAt n config.stopAtTypes then
            match config.customStopHandler with
            | none => ([branch1], h2)
            | some handler =>
              match handler n visits with
              | some .NormalStop => ([branch1], h2)
              | none => ([branch1], h2)
              | some .StopAndContinue =>
                -- forked = new FlowBranch(index + 1, [...branch.path])
                let forked : FlowBranch := ⟨index + 1, branch1.path⟩
                let rest := collectBranches db config visits fuel h2 iter2
                  (some forked) (index + 1) 0 (some n)
                (branch1 :: rest.1, rest.2)
              | some .Continue =>
                let branches1 :=
                  n.numBranchesF (h2.get iter2.vars) iter2.last iter2.shadowing
                collectLoop db config visits fuel h2 iter2 branch1 index (-1)
                  n branches1
          else
            let branches1 :=
              n.numBranchesF (h2.get iter2.vars) iter2.last iter2.shadowing
            collectLoop db config visits fuel h2 iter2 branch1 index (-1) n
              branches1
    else
      forkLoop db config visits fuel h iter branch index node branches 0 []

def forkLoop (db : Database) (config : Config) (visits : VisitSet)
    (fuel : Nat) (h : Heap) (iter : FlowState) (branch : FlowBranch)
    (index : Int) (node : Node) (branches : Nat) (i : Nat)
    (result : List FlowBranch) : List FlowBranch × Heap :=
  match fuel with
  | 0 => ([], h)
  | fuel + 1 =>
    if i < branches then
      -- forked = new FlowBranch(index, [...branch.path])
      let forked : FlowBranch := ⟨index, branch.path⟩
      let step := collectBranches db config visits fuel h iter (some forked)
        index (i : Int) (some node)
      let result1 := result ++ step.1
      -- if (result.length > 0) index = result[result.length - 1].index + 1
      let index1 :=
        match result1.getLast? with
        | some b => b.index + 1
        | none => index
      forkLoop db config visits fuel step.2 iter branch index1 node branches
        (i + 1) result1
    else
      (result, h)

end

/-- `refreshBranches` from `iterator.ts`: recompute the branch cache by
running `collectBranches` on a shadow-mode copy of the state.  The
source's `result.variables = vars` restore line re-establishes the
original store reference on the result; with states modelled by value
the spread copy `{ state with ... }` already carries it. -/
def refreshBranches (db : Database) (config : Config) (fuel : Nat)
    (h : Heap) (state : AdvancedFlowState) : AdvancedFlowState × Heap :=
  let collected := collectBranches db config state.visits fuel h
    { state.toFlowState with shadowing := true } none 0 (-1) none
  ({ state with branches := collected.1 }, collected.2)

/-- The path-execution loop of `advancedNextFlowState`: for each step,
lazily clone the store once (`hasCloned`), execute the node's script on
the (possibly cloned) store, and record the visit (count`+1`, index `:=`
the turn at the moment the commit began).  The source also invokes
`OnNodeExecution(step, state)` here; registered feature handlers
communicate only through the process-wide action queue (see the script
section below) and do not change the store, visits or turn, so they
contribute no state change at this level. -/
def commitWalk (turn : Nat) (h : Heap) (vars : Ref) (hasCloned : Bool)
    (visits : VisitSet) : List Node → Heap × Ref × Bool × VisitSet
  | [] => (h, vars, hasCloned, visits)
  | step :: rest =>
    let cloned :=
      if ¬hasCloned ∧ step.needsShadowB then
        let (r, h') := cloneVariableStore h vars
        (h', r, true)
      else (h, vars, hasCloned)
    let h1 := cloned.1
    let vars1 := cloned.2.1
    let h2 := h1.set vars1 (step.execEff (h1.get vars1))
    let count := (visits.counts step.nid).getD 0 + 1
    let visits1 : VisitSet :=
      ⟨fun x => if x = step.nid then some count else visits.counts x,
       fun x => if x = step.nid then some turn else visits.indicies x⟩
    commitWalk turn h2 vars1 cloned.2.2 visits1 rest

/-- `advancedNextFlowState` from `iterator.ts`.  Out-of-bounds, missing
id, or unmatched branch index return the input state with no node.  On
commit: walk the chosen branch's path (`commitWalk`), then build the new
state (`id` = last path node, `last` = second-to-last path node or the
pre-walk node, incremented turn, no `shadowing` property in the source
literal, hence `false`) and refresh its branch cache.  A cached branch
with an empty path would fault in the source (`path[-1].properties`);
branches produced by `collectBranches` always have non-empty paths, and
the model totalizes that case to the no-op result. -/
def advancedNextFlowState (db : Database) (config : Config) (fuel : Nat)
    (h : Heap) (state : AdvancedFlowState) (branchIndex : Int) :
    (AdvancedFlowState × Option Node) × Heap :=
  if branchIndex < 0 ∨ branchIndex ≥ (state.branches.length : Int) then
    ((state, none), h)
  else if isFalsyId state.id then ((state, none), h)
  else
    match state.branches.find? (fun x => x.index = branchIndex) with
    | none => ((state, none), h)
    | some branch =>
      -- visits := { indicies: {...state.visits.indicies}, counts: {...} }
      -- (a cloned-and-extended copy; spread copies are identities here)
      let walked := commitWalk state.turn h state.vars false state.visits
        branch.path
      match branch.path.getLast? with
      | none => ((state, none), walked.1)
      | some curr =>
        let last : Option Node :=
          if branch.path.length > 1 then
            branch.path.get? (branch.path.length - 2)
          else state.id.bind db.objects
        let newFlowState : AdvancedFlowState :=
          { id := some curr.nid,
            last := last.map Node.nid,
            branches := [],
            vars := walked.2.1,
            shadowing := false,
            visits := walked.2.2.2,
            turn := state.turn + 1 }
        let refreshed := refreshBranches db config fuel walked.1 newFlowState
        ((refreshed.1, some curr), refreshed.2)

/-- `advancedStartupFlowState` from `iterator.ts`: fresh state at `start`
with a newly constructed variable store and refreshed branches; if the
start node already satisfies the stop-set it is returned as-is (turn 0),
otherwise one advanced step down branch 0 is taken.  An unresolved start
id yields `NullAdvancedFlowState`. -/
def advancedStartupFlowState (db : Database) (config : Config) (fuel : Nat)
    (h : Heap) (start : ObjId) : (AdvancedFlowState × Option Node) × Heap :=
  let alloc := h.alloc db.newVars
  let initial0 : AdvancedFlowState :=
    { id := some start, last := none, branches := [], vars := alloc.1,
      visits := emptyVisits, turn := 0, shadowing := false }
  let refreshed := refreshBranches db config fuel alloc.2 initial0
  match db.objects start with
  | none => ((NullAdvancedFlowState, none), refreshed.2)
  | some node =>
    if shouldStopAt node config.stopAtTypes then
      ((refreshed.1, some node), refreshed.2)
    else advancedNextFlowState db config fuel refreshed.2 refreshed.1 0

/-!
Models of `script.ts`.  A script generator (`ScriptGenerator`) yields a
sequence of deferred actions and finally returns an optional variable
value; it is modelled by its yield list plus return value.  The
process-wide `actionQueue` (`AnyAction[] | undefined`, established only
by `createScriptDispatchMiddleware` around a dispatch) is modelled as an
explicit `Option (List AnyAction)` threaded through.
-/

/-- An action produced by a native script function, opaque to the
sandbox (a Redux action in the source). -/
abbrev AnyAction := String

/-- `queueGeneratedActions` from `script.ts`: drain the generator by
repeated `next()`; each yielded element is appended to the action queue
only when not shadowing and a queue is established (`!shadowing &&
actionQueue`; an established empty queue is truthy); the generator's
final return value is the result.  The third component counts the
`next()` invocations performed, making the full drain observable: it is
always the number of yielded elements plus the final `done` call. -/
def queueGeneratedActions (yields : List AnyAction) (ret : Option Var)
    (shadowing : Bool) (actionQueue : Option (List AnyAction)) :
    Option Var × Option (List AnyAction) × Nat :=
  match yields with
  | [] => (ret, actionQueue, 1)
  | a :: rest =>
    let q1 :=
      if ¬shadowing ∧ actionQueue.isSome then actionQueue.map (· ++ [a])
      else actionQueue
    let drained := queueGeneratedActions rest ret shadowing q1
    (drained.1, drained.2.1, drained.2.2 + 1)

/-- The feature-key walk of `OnNodeExecution` from `script.ts` over a
template's ordered keys.  `handlers` models the module-level
`featureHandlers : Map<string, FeatureExecutionHandler[]>` (absent key =
`none`; a registered empty list is a truthy array and does not stop the
walk).  The result is the ordered trace of handler invocations
`(featureKey, featureData, handler)` the loop performs; in the source
each such invocation calls
`handler(node.db, feature, node, state)` and queues any generated
actions with `shadowing = false`.  When a key has no registered handler
entry the source executes `return`, abandoning every remaining feature
of the template. -/
def OnNodeExecutionGo {H : Type} (handlers : String → Option (List H)) :
    Template → List (String × Feature × H)
  | [] => []
  | (key, feat) :: rest =>
    match handlers key with
    | none => []
    | some hs =>
      hs.map (fun hd => (key, feat, hd)) ++ OnNodeExecutionGo handlers rest

/-- `OnNodeExecution` from `script.ts`: nothing to do for template-less
nodes, otherwise walk the template's features in enumeration order. -/
def OnNodeExecution {H : Type} (handlers : String → Option (List H))
    (node : Node) : List (String × Feature × H) :=
  match node.template with
  | none => []
  | some tmpl => OnNodeExecutionGo handlers tmpl

/-!
Concrete test fixtures: small node-capability instances and databases
used to settle the concrete claims and to witness the general ones.
`mkNode` builds a node with a static target list, effect-free scripts
and the source's `-1` convention for `next` (follow only when there is
exactly one branch).
-/

def mkNode (nid : ObjId) (types : List String) (targets : List ObjId)
    (needsShadow : Bool) (template : Option Template) : Node :=
  { nid := nid, types := types, template := template,
    needsShadowB := needsShadow,
    numBranchesF := fun _ _ _ => targets.length,
    nextF := fun _ i _ _ =>
      if i < 0 then (if targets.length = 1 then targets.head? else none)
      else targets.get? i.toNat,
    nextEff := fun v _ _ _ => v,
    execEff := fun v => v }

/-- Chain `A → B → C`; `B` and `C` carry the stop type. -/
def nodeA : Node := mkNode "A" [] ["B"] false none
def nodeB : Node := mkNode "B" ["Stop"] ["C"] false none
def nodeC : Node := mkNode "C" ["Stop"] [] false none

def dbABC : Database :=
  { objects := fun i =>
      if i = "A" then some nodeA
      else if i = "B" then some nodeB
      else if i = "C" then some nodeC
      else none,
    newVars := [] }

/-- Stop at `Stop`-typed nodes; the handler answers `StopAndContinue` at
`B` and `NormalStop` everywhere else. -/
def configSC : Config :=
  { stopAtTypes := ["Stop"],
    customStopHandler := some (fun n _ =>
      if n.nid = "B" then some .StopAndContinue else some .NormalStop) }

/-- C1: for the linear chain `A → B → C` where `B` and `C` both match the
stop-set and the custom handler answers `StopAndContinue` at `B` and
`NormalStop` at `C`, `collectBranches` from `A` returns exactly two
branches: one with path `[B]` (terminal `B`), one with path `[B, C]`
(terminal `C`), carrying the contiguous, strictly increasing indices `0`
and `1`. -/
theorem collectBranches_stopAndContinue_chain :
    ((collectBranches dbABC configSC emptyVisits 20 [[]]
        ⟨some "A", none, 0, true⟩ none 0 (-1) none).1.map
      (fun b => (b.index, b.path.map Node.nid))) =
    [(0, ["B"]), (1, ["B", "C"])] := by
  decide

/-- C7: an out-of-range branch index (negative or `≥` the cached list's
length) or one matching no cached branch's `index` field makes
`advancedNextFlowState` a no-op: it returns the input state unchanged
with no destination node and leaves the heap alone (and, being total,
raises nothing). -/
theorem advancedNext_bad_index_noop :
    ∀ (db : Database) (config : Config) (fuel : Nat) (h : Heap)
      (state : AdvancedFlowState) (branchIndex : Int),
    (branchIndex < 0 ∨ branchIndex ≥ (state.branches.length : Int) ∨
      ∀ b ∈ state.branches, b.index ≠ branchIndex) →
    advancedNextFlowState db config fuel h state branchIndex =
      ((state, none), h) := by
  intro db config fuel h state branchIndex hcase
  by_cases h1 : branchIndex < 0 ∨ branchIndex ≥ (state.branches.length : Int)
  · simp [advancedNextFlowState, h1]
  · have hnone : ∀ b ∈ state.branches, b.index ≠ branchIndex := by
      rcases hcase with h' | h' | h'
      · exact absurd (Or.inl h') h1
      · exact absurd (Or.inr h') h1
      · exact h'
    have hfind :
        state.branches.find? (fun x => x.index = branchIndex) = none :=
      List.find?_eq_none.mpr (fun x hx => by simp [hnone x hx])
    by_cases hid : isFalsyId state.id
    · simp [advancedNextFlowState, h1, hid]
    · simp [advancedNextFlowState, h1, hid, hfind]

/-- Witness for C7: requesting branch `0` of a state with an empty branch
cache returns the state unchanged with no node. -/
theorem advancedNext_bad_index_noop_witness :
    advancedNextFlowState dbABC configSC 5 [[]] NullAdvancedFlowState 0 =
      ((NullAdvancedFlowState, none), [[]]) :=
  advancedNext_bad_index_noop dbABC configSC 5 [[]] NullAdvancedFlowState 0
    (Or.inr (Or.inl (by decide)))

/-- C8: in shadow mode `queueGeneratedActions` drains the whole generator
(`yields.length + 1` calls to `next()`) without appending anything to
the action queue, and still returns the generator's final value. -/
theorem queueGeneratedActions_shadow_drains_discards :
    ∀ (yields : List AnyAction) (ret : Option Var)
      (actionQueue : Option (List AnyAction)),
    queueGeneratedActions yields ret true actionQueue =
      (ret, actionQueue, yields.length + 1) := by
  intro yields ret q
  induction yields generalizing q with
  | nil => rfl
  | cons a rest ih => simp [queueGeneratedActions, ih]

/-- C10: with no dispatch active (`actionQueue` not established by the
middleware, i.e. `none`), actions generated in committed (non-shadow)
mode are silently discarded: the queue stays `none`, the generator is
drained anyway, and the value is returned with no diagnostic. -/
theorem queueGeneratedActions_no_dispatch_discards :
    ∀ (yields : List AnyAction) (ret : Option Var),
    queueGeneratedActions yields ret false none =
      (ret, none, yields.length + 1) := by
  intro yields ret
  induction yields with
  | nil => rfl
  | cons a rest ih => simp [queueGeneratedActions, ih]

/-- Every invocation `OnNodeExecutionGo` performs is for a key of the
template it walks. -/
theorem onNodeExecutionGo_keys {H : Type}
    (handlers : String → Option (List H)) :
    ∀ (tmpl : Template) (e : String × Feature × H),
    e ∈ OnNodeExecutionGo handlers tmpl → e.1 ∈ tmpl.map Prod.fst := by
  intro tmpl
  induction tmpl with
  | nil => intro e he; simp [OnNodeExecutionGo] at he
  | cons kf rest ih =>
    intro e he
    rw [OnNodeExecutionGo] at he
    rcases hk : handlers kf.1 with _ | hs
    · rw [hk] at he; simp at he
    · rw [hk] at he
      rcases List.mem_append.mp he with hin | hin
      · rcases List.mem_map.mp hin with ⟨hd, _, rfl⟩
        simp
      · simp [ih e hin]

/-- C9: `OnNodeExecution` abandons the whole walk at the first template
feature (in enumeration order) whose key has no registered handler
entry: the invocations performed are exactly those for the prefix before
that key, so handlers registered for features enumerated after it are
never invoked for that node. -/
theorem onNodeExecution_stops_at_first_unhandled :
    ∀ {H : Type} (handlers : String → Option (List H)) (node : Node)
      (pre : Template) (key : String) (feat : Feature) (post : Template),
    node.template = some (pre ++ (key, feat) :: post) →
    (∀ kf ∈ pre, (handlers kf.1).isSome = true) →
    handlers key = none →
    OnNodeExecution handlers node = OnNodeExecutionGo handlers pre ∧
    ∀ e ∈ OnNodeExecution handlers node, e.1 ∈ pre.map Prod.fst := by
  intro H handlers node pre key feat post htmpl hpre hkey
  have hgo : OnNodeExecutionGo handlers (pre ++ (key, feat) :: post) =
      OnNodeExecutionGo handlers pre := by
    clear htmpl
    induction pre with
    | nil => simp [OnNodeExecutionGo, hkey]
    | cons kf rest ih =>
      have hsome : (handlers kf.1).isSome = true := hpre kf (by simp)
      rcases hs : handlers kf.1 with _ | hs'
      · rw [hs] at hsome; simp at hsome
      · rw [List.cons_append, OnNodeExecutionGo, hs, OnNodeExecutionGo, hs,
          ih (fun x hx => hpre x (by simp [hx]))]
  have heq : OnNodeExecution handlers node = OnNodeExecutionGo handlers pre := by
    rw [OnNodeExecution, htmpl]
    exact hgo
  refine ⟨heq, ?_⟩
  intro e he
  rw [heq] at he
  exact onNodeExecutionGo_keys handlers pre e he

/-- Handler registry fixture for the C9 witness: `F2` has no entry, every
other feature has one handler. -/
def handlersW : String → Option (List Nat) :=
  fun k => if k = "F2" then none else some [0]

/-- Node fixture for the C9 witness: three features in order, the middle
one (`F2`) unhandled. -/
def nodeW : Node :=
  mkNode "W" [] [] false
    (some [("F1", .opaque_ "x"), ("F2", .opaque_ "y"), ("F3", .opaque_ "z")])

/-- Witness for C9: on `nodeW` the walk performs exactly the invocations
of the prefix `[F1]`, even though `F3` has a registered handler. -/
theorem onNodeExecution_stops_witness :
    OnNodeExecution handlersW nodeW =
      OnNodeExecutionGo handlersW [("F1", Feature.opaque_ "x")] :=
  (onNodeExecution_stops_at_first_unhandled handlersW nodeW
    [("F1", Feature.opaque_ "x")] "F2" (Feature.opaque_ "y")
    [("F3", Feature.opaque_ "z")] rfl (by decide) (by decide)).1

/-! Basic facts about the heap operations. -/

theorem Heap.length_set (h : Heap) (r : Ref) (v : VarMap) :
    (h.set r v).length = h.length := List.length_set h r v

theorem Heap.length_alloc (h : Heap) (v : VarMap) :
    (h.alloc v).2.length = h.length + 1 := by simp [Heap.alloc]

theorem Heap.get_alloc_self (h : Heap) (v : VarMap) :
    (h.alloc v).2.get (h.alloc v).1 = v := by
  simp [Heap.alloc, Heap.get, List.getD_append_right]

theorem Heap.get_alloc_lt (h : Heap) (v : VarMap) (r : Ref)
    (hr : r < h.length) : (h.alloc v).2.get r = h.get r := by
  show (h ++ [v]).getD r [] = h.getD r []
  exact List.getD_append h [v] [] r hr

theorem Heap.set_get_self (h : Heap) (r : Ref) : h.set r (h.get r) = h := by
  induction h generalizing r with
  | nil => rfl
  | cons a t ih =>
    cases r with
    | zero => rfl
    | succ n =>
      have ht := ih n
      simp only [Heap.set, Heap.get, List.getD_cons_succ, List.set] at ht ⊢
      rw [ht]

theorem Heap.get_set_ne (h : Heap) (r r' : Ref) (v : VarMap)
    (hne : r ≠ r') : (h.set r' v).get r = h.get r := by
  simp only [Heap.get, Heap.set, List.getD_eq_getElem?_getD]
  rw [List.getElem?_set_ne (fun he => hne he.symm)]

/-- C4 counterexample: called on a state with a null id but a non-null
`last` field, `basicNextFlowState` returns the input state unchanged
(`return [state, undefined]`), so the returned state's `last` is *not*
null — it is not the reset state the claim promises for the no-id case. -/
theorem basicNext_null_id_not_reset :
    ¬ ((basicNextFlowState dbABC [[]] ⟨none, some "A", 0, false⟩ 0).1.1.last
        = none) := by
  decide

/-- C4 (amended): when the state has no id, `basicNextFlowState` returns
the *input state unchanged* with no node; when an id is present but the
node does not resolve or the requested branch has no target, it returns
the reset state — null id, null last, a fresh empty variable store, the
shadowing flag preserved — with no node.  Being total, it raises
nothing. -/
theorem basicNext_terminal_cases :
    ∀ (db : Database) (h : Heap) (s : FlowState) (bi : Int),
    (isFalsyId s.id = true → basicNextFlowState db h s bi = ((s, none), h)) ∧
    (isFalsyId s.id = false →
      (s.id.bind db.objects = none ∨
        (∃ node, s.id.bind db.objects = some node ∧
          (node.nextF (h.get s.vars) bi s.last s.shadowing).bind db.objects
            = none)) →
      ((basicNextFlowState db h s bi).1.1.id = none ∧
       (basicNextFlowState db h s bi).1.1.last = none ∧
       (basicNextFlowState db h s bi).1.1.shadowing = s.shadowing ∧
       (basicNextFlowState db h s bi).2.get
         ((basicNextFlowState db h s bi).1.1.vars) = [] ∧
       (basicNextFlowState db h s bi).1.2 = none)) := by
  intro db h s bi
  constructor
  · intro hf
    simp [basicNextFlowState, hf]
  · intro hf hcase
    rcases hres : s.id.bind db.objects with _ | node
    · simp [basicNextFlowState, hf, hres, Heap.get_alloc_self]
    · rcases hcase with hnone | ⟨node', hsome, htgt⟩
      · rw [hres] at hnone
        exact absurd hnone (by simp)
      · rw [hres] at hsome
        cases hsome
        simp [basicNextFlowState, hf, hres, htgt, Heap.get_alloc_self]

/-- Witness for C4 (amended): an unresolvable id yields the reset state
with null id, null last, an empty fresh store and no node. -/
theorem basicNext_terminal_cases_witness :
    (basicNextFlowState dbABC [[]] ⟨some "Z", none, 0, false⟩ 0).1.1.id = none ∧
    (basicNextFlowState dbABC [[]] ⟨some "Z", none, 0, false⟩ 0).1.1.last = none ∧
    (basicNextFlowState dbABC [[]] ⟨some "Z", none, 0, false⟩ 0).1.1.shadowing
      = false ∧
    (basicNextFlowState dbABC [[]] ⟨some "Z", none, 0, false⟩ 0).2.get
      ((basicNextFlowState dbABC [[]] ⟨some "Z", none, 0, false⟩ 0).1.1.vars)
      = [] ∧
    (basicNextFlowState dbABC [[]] ⟨some "Z", none, 0, false⟩ 0).1.2 = none :=
  (basicNext_terminal_cases dbABC [[]] ⟨some "Z", none, 0, false⟩ 0).2
    (by decide) (Or.inl rfl)

/-- Chain `P → S1 → S2 → T` where `S1` and `S2` require shadowing and `T`
carries the stop type: a single fork-path with two shadow-requiring
nodes. -/
def nodeP : Node := mkNode "P" [] ["S1"] false none
def nodeS1 : Node := mkNode "S1" [] ["S2"] true none
def nodeS2 : Node := mkNode "S2" [] ["T"] true none
def nodeT : Node := mkNode "T" ["Stop"] [] false none

def dbShadow : Database :=
  { objects := fun i =>
      if i = "P" then some nodeP
      else if i = "S1" then some nodeS1
      else if i = "S2" then some nodeS2
      else if i = "T" then some nodeT
      else none,
    newVars := [] }

/-- Stop at `Stop`-typed nodes, no custom handler. -/
def configStop : Config :=
  { stopAtTypes := ["Stop"], customStopHandler := none }

/-- C3 counterexample: walking the single fork-path `P → S1 → S2 → T`,
`collectBranches` allocates **two** clones of the variable store (the
heap grows from 1 cell to 3; every allocation in this run is a clone —
no dead end is reached), refuting "cloned at most once per fork-path". -/
theorem collectBranches_not_clone_once :
    ¬ ((collectBranches dbShadow configStop emptyVisits 20 [[]]
        ⟨some "P", none, 0, true⟩ none 0 (-1) none).2.length ≤ 1 + 1) := by
  decide

/-- In the commit walk, once `hasCloned` is set no further allocation
happens: the heap length is preserved. -/
theorem commitWalk_cloned_length :
    ∀ (path : List Node) (turn : Nat) (h : Heap) (vars : Ref)
      (visits : VisitSet),
    (commitWalk turn h vars true visits path).1.length = h.length := by
  intro path
  induction path with
  | nil => intro turn h vars visits; rfl
  | cons step rest ih =>
    intro turn h vars visits
    simp [commitWalk, ih, Heap.length_set]

/-- C3 (amended): the copy-on-first-need behaviour ("clone at most once
per walk") belongs to the path-execution walk of
`advancedNextFlowState`, whose `hasCloned` flag limits cloning to the
first shadow-requiring node; `collectBranches` has no such flag and
clones at **every** shadow-requiring node it steps past — on the
single-path chain `P → S1 → S2 → T` with two such nodes it performs
exactly two clones. -/
theorem clone_once_is_commitWalk_only :
    (∀ (path : List Node) (turn : Nat) (h : Heap) (vars : Ref)
        (visits : VisitSet),
      (commitWalk turn h vars false visits path).1.length ≤ h.length + 1) ∧
    (collectBranches dbShadow configStop emptyVisits 20 [[]]
        ⟨some "P", none, 0, true⟩ none 0 (-1) none).2.length = 1 + 2 := by
  constructor
  · intro path
    induction path with
    | nil => intro turn h vars visits; exact Nat.le_succ _
    | cons step rest ih =>
      intro turn h vars visits
      by_cases hs : step.needsShadowB
      · simp [commitWalk, hs, commitWalk_cloned_length, Heap.length_set,
          Heap.length_alloc, cloneVariableStore]
      · have hrec := ih turn (h.set vars (step.execEff (h.get vars))) vars
          ⟨fun x => if x = step.nid then some ((visits.counts step.nid).getD 0 + 1)
              else visits.counts x,
           fun x => if x = step.nid then some turn else visits.indicies x⟩
        rw [Heap.length_set] at hrec
        simpa [commitWalk, hs] using hrec
  · decide

/-- A node is admissible for the given visit set: if it is visit-limited
to "only once", its recorded visit count is still zero. -/
def OkVisit (visits : VisitSet) (n : Node) : Prop :=
  visitLimitOnlyOnce n = true → (visits.counts n.nid).getD 0 = 0

/-- Surviving the visit-limitation guard makes a node admissible. -/
theorem okVisit_of_guard {visits : VisitSet} {n : Node}
    (hg : ¬(visitLimitOnlyOnce n = true ∧
      (visits.counts n.nid).getD 0 > 0)) : OkVisit visits n := by
  intro hlim
  by_contra hne
  exact hg ⟨hlim, Nat.pos_of_ne_zero hne⟩

/-- Admissibility is preserved when appending an admissible node. -/
theorem okPath_append {visits : VisitSet} {p : List Node} {n : Node}
    (hp : ∀ m ∈ p, OkVisit visits m) (hn : OkVisit visits n) :
    ∀ m ∈ p ++ [n], OkVisit visits m := by
  intro m hm
  rcases List.mem_append.mp hm with h1 | h2
  · exact hp m h1
  · rw [List.mem_singleton.mp h2]; exact hn

/-- Joint invariant of the three `collectBranches` phases: starting from
an in-progress branch whose path contains only admissible nodes, every
node of every returned branch's path is admissible — the guard runs on
each node right after it is reached and before it is pushed. -/
theorem collectVisitOk (db : Database) (config : Config) (visits : VisitSet) :
    ∀ fuel : Nat,
    (∀ h iter branch? index direction node?,
      (∀ br, branch? = some br → ∀ n ∈ br.path, OkVisit visits n) →
      ∀ b ∈ (collectBranches db config visits fuel h iter branch? index
          direction node?).1,
      ∀ n ∈ b.path, OkVisit visits n) ∧
    (∀ h iter branch index direction node branches,
      (∀ n ∈ branch.path, OkVisit visits n) →
      ∀ b ∈ (collectLoop db config visits fuel h iter branch index direction
          node branches).1,
      ∀ n ∈ b.path, OkVisit visits n) ∧
    (∀ h iter branch index node branches i result,
      (∀ n ∈ branch.path, OkVisit visits n) →
      (∀ b ∈ result, ∀ n ∈ b.path, OkVisit visits n) →
      ∀ b ∈ (forkLoop db config visits fuel h iter branch index node branches
          i result).1,
      ∀ n ∈ b.path, OkVisit visits n) := by
  intro fuel
  induction fuel with
  | zero =>
    refine ⟨?_, ?_, ?_⟩
    · intro h iter branch? index direction node? _ b hb
      simp [collectBranches] at hb
    · intro h iter branch index direction node branches _ b hb
      simp [collectLoop] at hb
    · intro h iter branch index node branches i result _ _ b hb
      simp [forkLoop] at hb
  | succ fuel ih =>
    obtain ⟨ihB, ihL, ihF⟩ := ih
    refine ⟨?_, ?_, ?_⟩
    · -- collectBranches entry
      intro h iter branch? index direction node? hbr b hb n hn
      simp only [collectBranches] at hb
      split at hb
      · simp at hb
      · split at hb
        · simp at hb
        · rename_i node hres
          refine ihL _ _ _ _ _ _ _ ?_ b hb n hn
          intro m hm
          cases branch? with
          | none => simp at hm
          | some br => exact hbr br rfl m hm
    · -- while loop
      intro h iter branch index direction node branches hbr b hb n hn
      simp only [collectLoop] at hb
      split at hb
      · -- loop body
        split at hb
        · -- dead end
          simp at hb
        · rename_i iter2 n' h2 hstep
          split at hb
          · -- visit-limitation kills the branch
            simp at hb
          · rename_i hguard
            have hn' : OkVisit visits n' := okVisit_of_guard hguard
            have hpath : ∀ m ∈ branch.path ++ [n'], OkVisit visits m :=
              okPath_append hbr hn'
            split at hb
            · -- stop-set hit
              split at hb
              · -- no custom handler
                rw [List.mem_singleton.mp hb] at hn
                exact hpath n hn
              · -- with custom handler
                split at hb
                · rw [List.mem_singleton.mp hb] at hn
                  exact hpath n hn
                · rw [List.mem_singleton.mp hb] at hn
                  exact hpath n hn
                · -- StopAndContinue
                  rcases List.mem_cons.mp hb with rfl | htail
                  · exact hpath n hn
                  · exact ihB _ _ _ _ _ _
                      (fun br hbr' => by cases hbr'; exact hpath) b htail n hn
                · -- Continue
                  exact ihL _ _ _ _ _ _ _ hpath b hb n hn
            · -- not a stop: keep walking
              exact ihL _ _ _ _ _ _ _ hpath b hb n hn
      · -- fork
        exact ihF _ _ _ _ _ _ _ _ hbr (fun b' hb' => by simp at hb') b hb n hn
    · -- fork loop
      intro h iter branch index node branches i result hbr hres b hb n hn
      simp only [forkLoop] at hb
      split at hb
      · refine ihF _ _ _ _ _ _ _ _ hbr ?_ b hb n hn
        intro b' hb' m hm
        rcases List.mem_append.mp hb' with h1 | h2
        · exact hres b' h1 m hm
        · exact ihB _ _ _ _ _ _
            (fun br hbr' => by cases hbr'; exact hbr) b' h2 m hm
      · exact hres b hb n hn

/-- C5: a node carrying a `Visit_Limitation`/`Only_Once` feature whose
count in the supplied visit set is already `≥ 1` never appears anywhere
in any path (hence never as a destination) of any branch returned by
`collectBranches` with that visit set: contrapositively, every node in a
returned path that is only-once-limited still has count `0`. -/
theorem collectBranches_respects_visit_limit :
    ∀ (db : Database) (config : Config) (visits : VisitSet) (fuel : Nat)
      (h : Heap) (iter : FlowState) (index direction : Int)
      (node? : Option Node) (b : FlowBranch) (n : Node),
    b ∈ (collectBranches db config visits fuel h iter none index direction
        node?).1 →
    n ∈ b.path →
    visitLimitOnlyOnce n = true →
    (visits.counts n.nid).getD 0 = 0 :=
  fun db config visits fuel h iter index direction node? b n hb hn hlim =>
    (collectVisitOk db config visits fuel).1 h iter none index direction node?
      (fun _ hbr => nomatch hbr) b hb n hn hlim

/-- Fixture for the C5 witness: `S → L` where `L` is only-once limited
and a stop node; with an empty visit set the branch to `L` is kept. -/
def nodeL : Node :=
  mkNode "L" ["Stop"] [] false
    (some [("Visit_Limitation", .visitLimitation true)])
def nodeS : Node := mkNode "S" [] ["L"] false none

def dbOnce : Database :=
  { objects := fun i =>
      if i = "S" then some nodeS
      else if i = "L" then some nodeL
      else none,
    newVars := [] }

/-- Witness for C5: the branch `[L]` returned from `S` contains the
only-once node `L`, and indeed its count in the supplied visit set is
zero. -/
theorem collectBranches_respects_visit_limit_witness :
    (emptyVisits.counts "L").getD 0 = 0 :=
  collectBranches_respects_visit_limit dbOnce configStop emptyVisits 10 [[]]
    ⟨some "S", none, 0, true⟩ 0 (-1) none ⟨0, [nodeL]⟩ nodeL
    (List.Mem.head _) (List.Mem.head _) rfl

/-- A node honours the shadowing contract: if it reports that it does
not need shadowing, then neither stepping through it nor executing it
mutates the variable store (the claim's "every node that mutates
variables reports `needsShadow() = true`"). -/
def HonestNode (n : Node) : Prop :=
  n.needsShadowB = false →
    (∀ v i l s, n.nextEff v i l s = v) ∧ (∀ v, n.execEff v = v)

/-- Every node of the database honours the shadowing contract. -/
def HonestDb (db : Database) : Prop :=
  ∀ i n, db.objects i = some n → HonestNode n

/-- Database well-formedness: an object is registered under its own id
(`db.getObject(id).properties.Id === id`), so the node handed along by
the traversal coincides with the node `basicNextFlowState` re-resolves. -/
def CoherentDb (db : Database) : Prop :=
  ∀ i n, db.objects i = some n → n.nid = i

/-- `ExtBelow N h h'`: going from heap `h` to `h'`, every cell below `N`
kept its content and the heap is still at least `N` cells long. -/
def ExtBelow (N : Nat) (h h' : Heap) : Prop :=
  N ≤ h'.length ∧ ∀ r, r < N → h'.get r = h.get r

theorem ExtBelow.rfl {N : Nat} {h : Heap} (hN : N ≤ h.length) :
    ExtBelow N h h := ⟨hN, fun _ _ => Eq.refl _⟩

theorem ExtBelow.trans {N : Nat} {h1 h2 h3 : Heap}
    (a : ExtBelow N h1 h2) (b : ExtBelow N h2 h3) : ExtBelow N h1 h3 :=
  ⟨b.1, fun r hr => (b.2 r hr).trans (a.2 r hr)⟩

theorem ExtBelow.alloc {N : Nat} {h : Heap} (hN : N ≤ h.length)
    (v : VarMap) : ExtBelow N h (h.alloc v).2 := by
  refine ⟨?_, fun r hr => ?_⟩
  · rw [Heap.length_alloc]; exact Nat.le_succ_of_le hN
  · exact Heap.get_alloc_lt h v r (Nat.lt_of_lt_of_le hr hN)

theorem ExtBelow.set_ge {N : Nat} {h : Heap} {r' : Ref} (hN : N ≤ h.length)
    (hr' : N ≤ r') (v : VarMap) : ExtBelow N h (h.set r' v) := by
  refine ⟨?_, fun r hr => ?_⟩
  · rw [Heap.length_set]; exact hN
  · exact Heap.get_set_ne h r r' v (Nat.ne_of_lt (Nat.lt_of_lt_of_le hr hr'))

/-- `basicNextFlowState` preserves all heap cells below `N` provided the
single in-place write it can perform is harmless: either the state's
store lives at or above `N`, or the resolved node's step effect leaves
the store's current content unchanged. -/
theorem basicNext_extBelow (N : Nat) (db : Database) (h : Heap)
    (s : FlowState) (bi : Int) (hN : N ≤ h.length)
    (hw : N ≤ s.vars ∨
      ∀ n, s.id.bind db.objects = some n →
        n.nextEff (h.get s.vars) bi s.last s.shadowing = h.get s.vars) :
    ExtBelow N h (basicNextFlowState db h s bi).2 := by
  by_cases hid : isFalsyId s.id
  · simp only [basicNextFlowState, hid]
    exact ExtBelow.rfl hN
  · rcases hres : s.id.bind db.objects with _ | node
    · simp only [basicNextFlowState, hid, hres, Bool.false_eq_true,
        if_false]
      exact ExtBelow.alloc hN []
    · have hset : ExtBelow N h
          (h.set s.vars (node.nextEff (h.get s.vars) bi s.last s.shadowing)) := by
        rcases hw with hge | hval
        · exact ExtBelow.set_ge hN hge _
        · rw [hval node hres, Heap.set_get_self]
          exact ExtBelow.rfl hN
      rcases htgt : (node.nextF (h.get s.vars) bi s.last s.shadowing).bind
          db.objects with _ | nx
      · simp only [basicNextFlowState, hid, hres, htgt, Bool.false_eq_true,
          if_false]
        exact hset.trans (ExtBelow.alloc hset.1 [])
      · simp only [basicNextFlowState, hid, hres, htgt, Bool.false_eq_true,
          if_false]
        exact hset

/-- When `basicNextFlowState` reaches a node, the new state's id resolves
(in a coherent database) to exactly that node. -/
theorem basicNext_some_sync (db : Database) (hco : CoherentDb db) (h : Heap)
    (s : FlowState) (bi : Int) (n : Node)
    (hr : (basicNextFlowState db h s bi).1.2 = some n) :
    (basicNextFlowState db h s bi).1.1.id.bind db.objects = some n := by
  by_cases hid : isFalsyId s.id
  · simp only [basicNextFlowState, hid] at hr ⊢
    exact absurd hr (by simp)
  · rcases hres : s.id.bind db.objects with _ | node
    · simp only [basicNextFlowState, hid, hres, Bool.false_eq_true,
        if_false] at hr
      exact absurd hr (by simp)
    · rcases htgt : (node.nextF (h.get s.vars) bi s.last s.shadowing).bind
          db.objects with _ | nx
      · simp only [basicNextFlowState, hid, hres, htgt, Bool.false_eq_true,
          if_false] at hr
        exact absurd hr (by simp)
      · simp only [basicNextFlowState, hid, hres, htgt, Bool.false_eq_true,
          if_false] at hr ⊢
        cases hr
        rcases Option.bind_eq_some.mp htgt with ⟨t, _, ht⟩
        rw [Option.some_bind, hco t n ht, ht]

/-- Joint heap-preservation invariant of the three `collectBranches`
phases: in an honest, coherent database, a collection run only ever
writes through a clone allocated at or above the initial heap bound `N`,
or writes a value equal to what the cell already holds (a
non-shadow-requiring node's identity effect) — so every cell below `N`
keeps its pre-call content. -/
theorem collectExtBelow (db : Database) (config : Config) (visits : VisitSet)
    (N : Nat) (hdb : HonestDb db) (hco : CoherentDb db) :
    ∀ fuel : Nat,
    (∀ h iter branch? index direction node?,
      (∀ n, node? = some n → iter.id.bind db.objects = some n) →
      N ≤ h.length →
      ExtBelow N h (collectBranches db config visits fuel h iter branch?
        index direction node?).2) ∧
    (∀ h iter branch index direction node branches,
      iter.id.bind db.objects = some node →
      N ≤ h.length →
      ExtBelow N h (collectLoop db config visits fuel h iter branch index
        direction node branches).2) ∧
    (∀ h iter branch index node branches i result,
      iter.id.bind db.objects = some node →
      N ≤ h.length →
      ExtBelow N h (forkLoop db config visits fuel h iter branch index node
        branches i result).2) := by
  intro fuel
  induction fuel with
  | zero =>
    refine ⟨?_, ?_, ?_⟩
    · intro h iter branch? index direction node? _ hN
      exact ExtBelow.rfl hN
    · intro h iter branch index direction node branches _ hN
      exact ExtBelow.rfl hN
    · intro h iter branch index node branches i result _ hN
      exact ExtBelow.rfl hN
  | succ fuel ih =>
    obtain ⟨ihB, ihL, ihF⟩ := ih
    refine ⟨?_, ?_, ?_⟩
    · -- collectBranches entry: no heap operation of its own
      intro h iter branch? index direction node? hsync hN
      simp only [collectBranches]
      split
      · exact ExtBelow.rfl hN
      · split
        · exact ExtBelow.rfl hN
        · rename_i node hres
          refine ihL _ _ _ _ _ _ _ ?_ hN
          cases node? with
          | none => simpa using hres
          | some n0 =>
            rw [Option.some_orElse] at hres
            cases hres
            exact hsync node rfl
    · -- while loop: one optional clone, then the basic step's write
      intro h iter branch index direction node branches hsync hN
      obtain ⟨i0, hi0, hobj⟩ := Option.bind_eq_some.mp hsync
      have hhon : HonestNode node := hdb i0 node hobj
      simp only [collectLoop]
      split
      · -- loop body; split on the clone decision
        by_cases hsh : node.needsShadowB
        all_goals simp only [hsh, if_true, if_false, Bool.false_eq_true]
        -- case: clone first (write lands at or above N)
        case pos =>
          have hext1 : ExtBelow N h (cloneVariableStore h iter.vars).2 :=
            ExtBelow.alloc hN _
          have hbn : ExtBelow N (cloneVariableStore h iter.vars).2
              (basicNextFlowState db (cloneVariableStore h iter.vars).2
                { iter with vars := (cloneVariableStore h iter.vars).1 }
                direction).2 :=
            basicNext_extBelow N db _ _ direction hext1.1 (Or.inl hN)
          have hpre : ExtBelow N h
              (basicNextFlowState db (cloneVariableStore h iter.vars).2
                { iter with vars := (cloneVariableStore h iter.vars).1 }
                direction).2 := hext1.trans hbn
          split
          · rename_i x h2 heq
            rw [heq] at hpre
            exact hpre
          · rename_i iter2 n h2 heq
            rw [heq] at hpre
            have hsync2 : iter2.id.bind db.objects = some n := by
              have := basicNext_some_sync db hco
                (cloneVariableStore h iter.vars).2
                { iter with vars := (cloneVariableStore h iter.vars).1 }
                direction n (by rw [heq])
              rwa [heq] at this
            split
            · exact hpre
            · split
              · split
                · exact hpre
                · split
                  · exact hpre
                  · exact hpre
                  · exact hpre.trans (ihB _ _ _ _ _ _
                      (fun n' hn' => by cases hn'; exact hsync2) hpre.1)
                  · exact hpre.trans (ihL _ _ _ _ _ _ _ hsync2 hpre.1)
              · exact hpre.trans (ihL _ _ _ _ _ _ _ hsync2 hpre.1)
        -- case: no clone; the node's step effect is the identity
        case neg =>
          have hid : ∀ n', iter.id.bind db.objects = some n' →
              n'.nextEff (h.get iter.vars) direction iter.last iter.shadowing
                = h.get iter.vars := by
            intro n' hn'
            rw [hsync] at hn'
            cases hn'
            exact (hhon (Bool.not_eq_true _ ▸ hsh)).1 _ _ _ _
          have hpre : ExtBelow N h
              (basicNextFlowState db h iter direction).2 :=
            basicNext_extBelow N db h iter direction hN (Or.inr hid)
          split
          · rename_i x h2 heq
            rw [heq] at hpre
            exact hpre
          · rename_i iter2 n h2 heq
            rw [heq] at hpre
            have hsync2 : iter2.id.bind db.objects = some n := by
              have := basicNext_some_sync db hco h iter direction n
                (by rw [heq])
              rwa [heq] at this
            split
            · exact hpre
            · split
              · split
                · exact hpre
                · split
                  · exact hpre
                  · exact hpre
                  · exact hpre.trans (ihB _ _ _ _ _ _
                      (fun n' hn' => by cases hn'; exact hsync2) hpre.1)
                  · exact hpre.trans (ihL _ _ _ _ _ _ _ hsync2 hpre.1)
              · exact hpre.trans (ihL _ _ _ _ _ _ _ hsync2 hpre.1)
      · -- fork
        exact ihF _ _ _ _ _ _ _ _ hsync hN
    · -- fork loop
      intro h iter branch index node branches i result hsync hN
      simp only [forkLoop]
      split
      · have hstep : ExtBelow N h (collectBranches db config visits fuel h
            iter (some ⟨index, branch.path⟩) index (i : Int) (some node)).2 :=
          ihB _ _ _ _ _ _ (fun n' hn' => by cases hn'; exact hsync) hN
        exact hstep.trans (ihF _ _ _ _ _ _ _ _ hsync hstep.1)
      · exact ExtBelow.rfl hN

/-- C2: `refreshBranches` runs `collectBranches` in shadow mode on a
spread copy of the state; provided every variable-mutating node reports
`needsShadow() = true` (honesty) and objects are registered under their
own ids (coherence), the committed state's store reference is kept on
the result and the content of that store is untouched by the whole
collection run. -/
theorem refreshBranches_isolates_committed_store :
    ∀ (db : Database) (config : Config) (fuel : Nat) (h : Heap)
      (state : AdvancedFlowState),
    HonestDb db → CoherentDb db → state.vars < h.length →
    (refreshBranches db config fuel h state).1.vars = state.vars ∧
    (refreshBranches db config fuel h state).2.get state.vars
      = h.get state.vars := by
  intro db config fuel h state hdb hco hv
  have hext := (collectExtBelow db config state.visits h.length hdb hco
    fuel).1 h { state.toFlowState with shadowing := true } none 0 (-1) none
    (fun _ hn => nomatch hn) (Nat.le_refl _)
  exact ⟨rfl, hext.2 state.vars hv⟩

/-- Nodes built by `mkNode` have effect-free scripts, hence honour the
shadowing contract trivially. -/
theorem dbOnce_honest : HonestDb dbOnce := by
  intro i n hin
  simp only [dbOnce] at hin
  split at hin
  · injection hin with h'
    subst h'
    exact fun _ => ⟨fun _ _ _ _ => rfl, fun _ => rfl⟩
  · split at hin
    · injection hin with h'
      subst h'
      exact fun _ => ⟨fun _ _ _ _ => rfl, fun _ => rfl⟩
    · exact absurd hin (by simp)

/-- `dbOnce` registers each node under its own id. -/
theorem dbOnce_coherent : CoherentDb dbOnce := by
  intro i n hin
  simp only [dbOnce] at hin
  split at hin
  · rename_i h1
    injection hin with h'
    subst h'
    subst h1
    rfl
  · split at hin
    · rename_i h2
      injection hin with h'
      subst h'
      subst h2
      rfl
    · exact absurd hin (by simp)

/-- Committed advanced state for the C2 witness, owning heap cell `0`. -/
def stOnce : AdvancedFlowState :=
  { id := some "S", last := none, vars := 0, shadowing := false,
    branches := [], visits := emptyVisits, turn := 0 }

/-- Witness for C2: refreshing branches over `dbOnce` keeps `stOnce`'s
store reference and leaves its content untouched. -/
theorem refreshBranches_isolates_witness :
    (refreshBranches dbOnce configStop 10 [[]] stOnce).1.vars = stOnce.vars ∧
    (refreshBranches dbOnce configStop 10 [[]] stOnce).2.get stOnce.vars
      = Heap.get [[]] stOnce.vars :=
  refreshBranches_isolates_committed_store dbOnce configStop 10 [[]] stOnce
    dbOnce_honest dbOnce_coherent (by decide)

/-- After the commit walk, a node id's recorded visit index is the walk's
turn value exactly when some step of the path carries that id; all other
entries are untouched. -/
theorem commitWalk_indicies (turn : Nat) :
    ∀ (path : List Node) (h : Heap) (vars : Ref) (hc : Bool)
      (visits : VisitSet) (x : ObjId),
    (commitWalk turn h vars hc visits path).2.2.2.indicies x =
      if path.any (fun n => n.nid == x) then some turn
      else visits.indicies x := by
  intro path
  induction path with
  | nil =>
    intro h vars hc visits x
    simp [commitWalk]
  | cons step rest ih =>
    intro h vars hc visits x
    simp only [commitWalk]
    rw [ih]
    by_cases hx : rest.any (fun n => n.nid == x)
    · simp [hx, List.any_cons]
    · by_cases hs : x = step.nid
      · subst hs
        simp [hx, List.any_cons]
      · have : ¬ (step.nid == x) = true := by
          simp
          exact fun he => hs he.symm
        simp [hx, List.any_cons, this, hs]

/-- A successful (committing) `advancedNextFlowState` call increments the
turn counter by exactly one. -/
theorem advancedNext_success_turn (db : Database) (config : Config)
    (fuel : Nat) (h : Heap) (s : AdvancedFlowState) (bi : Int)
    (s' : AdvancedFlowState) (nd : Node) (h' : Heap)
    (heq : advancedNextFlowState db config fuel h s bi = ((s', some nd), h')) :
    s'.turn = s.turn + 1 := by
  simp only [advancedNextFlowState] at heq
  split at heq
  · simp at heq
  · split at heq
    · simp at heq
    · split at heq
      · simp at heq
      · split at heq
        · simp at heq
        · simp only [Prod.mk.injEq] at heq
          obtain ⟨⟨hs', _⟩, _⟩ := heq
          subst hs'
          rfl

/-- During a successful commit along cached branch `br`, every node of
`br`'s path gets its visit index set to the turn value the state had
when the commit began. -/
theorem advancedNext_success_indicies (db : Database) (config : Config)
    (fuel : Nat) (h : Heap) (s : AdvancedFlowState) (bi : Int)
    (s' : AdvancedFlowState) (nd : Node) (h' : Heap) (br : FlowBranch)
    (heq : advancedNextFlowState db config fuel h s bi = ((s', some nd), h'))
    (hfind : s.branches.find? (fun x => x.index = bi) = some br) :
    ∀ step ∈ br.path, s'.visits.indicies step.nid = some s.turn := by
  intro step hstep
  simp only [advancedNextFlowState] at heq
  split at heq
  · simp at heq
  · split at heq
    · simp at heq
    · split at heq
      · simp at heq
      · rename_i b hfound
        rw [hfind] at hfound
        injection hfound with hb
        subst hb
        split at heq
        · simp at heq
        · simp only [Prod.mk.injEq] at heq
          obtain ⟨⟨hs', _⟩, _⟩ := heq
          subst hs'
          show (commitWalk s.turn h s.vars false s.visits br.path).2.2.2.indicies
            step.nid = some s.turn
          rw [commitWalk_indicies]
          have hany : br.path.any (fun n => n.nid == step.nid) = true :=
            List.any_eq_true.mpr ⟨step, hstep, by simp⟩
          simp [hany]

/-- A chain of `N` consecutive successful (committing)
`advancedNextFlowState` calls from a starting heap and state. -/
inductive CommitChain (db : Database) (config : Config) (fuel : Nat) :
    Heap → AdvancedFlowState → Nat → Heap → AdvancedFlowState → Prop where
  | refl (h : Heap) (s : AdvancedFlowState) :
      CommitChain db config fuel h s 0 h s
  | step {h : Heap} {s : AdvancedFlowState} {n : Nat} {h' : Heap}
      {s' : AdvancedFlowState} {bi : Int} {s'' : AdvancedFlowState}
      {nd : Node} {h'' : Heap} :
      CommitChain db config fuel h s n h' s' →
      advancedNextFlowState db config fuel h' s' bi = ((s'', some nd), h'') →
      CommitChain db config fuel h s (n + 1) h'' s''

/-- C6: (1) a fresh startup state whose start node already satisfies the
stop-set has `turn = 0` (no commit has happened); (2) after `N`
consecutive committing `advancedNextFlowState` calls from any turn-`0`
state — which is what a fresh startup produces before its optional
automatic first step — the turn counter equals `N`; (3) in each commit,
every node stepped through records the turn value the state had when
that commit began (the pre-increment value). -/
theorem advanced_turn_accounting :
    (∀ (db : Database) (config : Config) (fuel : Nat) (h : Heap)
        (start : ObjId) (node : Node),
      db.objects start = some node →
      shouldStopAt node config.stopAtTypes = true →
      (advancedStartupFlowState db config fuel h start).1.1.turn = 0) ∧
    (∀ (db : Database) (config : Config) (fuel : Nat) (h : Heap)
        (s : AdvancedFlowState) (N : Nat) (h' : Heap)
        (s' : AdvancedFlowState),
      CommitChain db config fuel h s N h' s' → s.turn = 0 → s'.turn = N) ∧
    (∀ (db : Database) (config : Config) (fuel : Nat) (h : Heap)
        (s : AdvancedFlowState) (bi : Int) (s' : AdvancedFlowState)
        (nd : Node) (h' : Heap) (br : FlowBranch),
      advancedNextFlowState db config fuel h s bi = ((s', some nd), h') →
      s.branches.find? (fun x => x.index = bi) = some br →
      ∀ step ∈ br.path, s'.visits.indicies step.nid = some s.turn) := by
  refine ⟨?_, ?_, ?_⟩
  · intro db config fuel h start node hobj hstop
    simp only [advancedStartupFlowState, hobj, hstop, if_true]
    rfl
  · intro db config fuel h s N h' s' hchain hturn
    have : ∀ {hh ss n hh' ss'}, CommitChain db config fuel hh ss n hh' ss' →
        ss'.turn = ss.turn + n := by
      intro hh ss n hh' ss' hc
      induction hc with
      | refl => rfl
      | step hc' hstep ih =>
        rw [advancedNext_success_turn _ _ _ _ _ _ _ _ _ hstep, ih,
          Nat.add_assoc]
    rw [this hchain, hturn, Nat.zero_add]
  · intro db config fuel h s bi s' nd h' br heq hfind
    exact advancedNext_success_indicies db config fuel h s bi s' nd h' br
      heq hfind

/-- Self-loop stop node for the C6 witness: `AA → AA`, one branch,
stop-typed, so every commit walks one step back onto `AA`. -/
def nodeAA : Node := mkNode "AA" ["Stop"] ["AA"] false none

def dbLoop : Database :=
  { objects := fun i => if i = "AA" then some nodeAA else none,
    newVars := [] }

def s0C6 : AdvancedFlowState :=
  (advancedStartupFlowState dbLoop configStop 10 [[]] "AA").1.1
def h0C6 : Heap :=
  (advancedStartupFlowState dbLoop configStop 10 [[]] "AA").2
def s1C6 : AdvancedFlowState :=
  (advancedNextFlowState dbLoop configStop 10 h0C6 s0C6 0).1.1
def h1C6 : Heap :=
  (advancedNextFlowState dbLoop configStop 10 h0C6 s0C6 0).2
def s2C6 : AdvancedFlowState :=
  (advancedNextFlowState dbLoop configStop 10 h1C6 s1C6 0).1.1
def h2C6 : Heap :=
  (advancedNextFlowState dbLoop configStop 10 h1C6 s1C6 0).2

/-- Witness for C6: the startup state at the stop node `AA` has turn 0;
two consecutive commits bring the turn to 2, and the first commit
records visit index 0 (the pre-increment turn) for the stepped node. -/
theorem advanced_turn_accounting_witness :
    s2C6.turn = 2 ∧ s1C6.visits.indicies "AA" = some 0 := by
  have hstep1 : advancedNextFlowState dbLoop configStop 10 h0C6 s0C6 0 =
      ((s1C6, some nodeAA), h1C6) := rfl
  have hstep2 : advancedNextFlowState dbLoop configStop 10 h1C6 s1C6 0 =
      ((s2C6, some nodeAA), h2C6) := rfl
  have hchain : CommitChain dbLoop configStop 10 h0C6 s0C6 2 h2C6 s2C6 :=
    CommitChain.step (CommitChain.step (CommitChain.refl h0C6 s0C6) hstep1)
      hstep2
  refine ⟨advanced_turn_accounting.2.1 dbLoop configStop 10 h0C6 s0C6 2 h2C6
    s2C6 hchain rfl, ?_⟩
  exact advanced_turn_accounting.2.2 dbLoop configStop 10 h0C6 s0C6 0 s1C6
    nodeAA h1C6 ⟨0, [nodeAA]⟩ hstep1 rfl nodeAA (List.Mem.head _)
